import Mathlib

/- Verification of the field-localization engine of backend/mapper.py
   (with the record types of backend/models.py).

   Modelling conventions: Python strings are lists of characters, float
   coordinates are rationals, the JSON-ish dynamic values stored in a
   candidate-field record are the PyVal type, and raising an exception is
   modelled by Except.error. -/

set_option maxHeartbeats 1000000

/-- Characters treated as whitespace by Python's str.strip, str.isspace and
the regex class \s (ASCII range). -/
def isSpaceChar (c : Char) : Bool :=
  c == ' ' || c == '\t' || c == '\n' || c == '\r' || c == '\x0b' || c == '\x0c'

/-- Python str.lower, character-wise (ASCII letters). -/
def pyLower (l : List Char) : List Char := l.map Char.toLower

/-- Python str.strip: drop leading and trailing whitespace. -/
def pyStrip (l : List Char) : List Char :=
  ((l.dropWhile isSpaceChar).reverse.dropWhile isSpaceChar).reverse

/-- State machine for re.sub(r"\s+", " ", s): the Boolean records whether the
previous character was part of a whitespace run that was already emitted as a
single space. -/
def collapseAux : List Char → Bool → List Char
  | [], _ => []
  | c :: rest, prevSpace =>
    if isSpaceChar c then
      if prevSpace then collapseAux rest true
      else ' ' :: collapseAux rest true
    else c :: collapseAux rest false

/-- re.sub(r"\s+", " ", s): collapse each whitespace run to a single space. -/
def collapseWS (l : List Char) : List Char := collapseAux l false

/-- All indices at which needle occurs in hay, in ascending order: exactly the
indices visited by the Python loop
start = raw.find(needle); while start != -1: ...; start = raw.find(needle, start + 1). -/
def occurrences (hay needle : List Char) : List Nat :=
  (List.range (hay.length + 1)).filter (fun i => needle.isPrefixOf (hay.drop i))

/-- Python str.find: index of the leftmost occurrence (none models -1). -/
def firstOcc (hay needle : List Char) : Option Nat := (occurrences hay needle).head?

/-- A JSON-like dynamic value stored in a candidate-field record. -/
inductive PyVal where
  | str (s : List Char)
  | int (n : Int)
  | nul
deriving DecidableEq, Repr

/-- One element of the structured["fields"] list: either a dict (modelled as an
association list over string keys) or a non-dict value, on which field.get
raises AttributeError. -/
inductive PyField where
  | dict (entries : List (String × PyVal))
  | nonDict (v : PyVal)
deriving DecidableEq, Repr

/-- The character records of the layout; mapper.py reads the keys page, x0, y0,
x1, y1 and global_offset. -/
structure CharRec where
  page : Nat
  x0 : ℚ
  y0 : ℚ
  x1 : ℚ
  y1 : ℚ
  global_offset : Nat
deriving DecidableEq, Repr

/-- One page of the layout: width, height and its character records. -/
structure PageLayout where
  width : ℚ
  height : ℚ
  chars : List CharRec
deriving DecidableEq, Repr

/-- models.FieldRect. -/
structure FieldRect where
  page : Nat
  x0 : ℚ
  y0 : ℚ
  x1 : ℚ
  y1 : ℚ
  page_width : ℚ
  page_height : ℚ
deriving DecidableEq, Repr

/-- models.ExtractedField after model_dump. -/
structure ExtractedField where
  label : List Char
  value : List Char
  snippet : List Char
  rects : List FieldRect
deriving DecidableEq, Repr

/-- Python dict.get(key, default). -/
def dictGetD (entries : List (String × PyVal)) (k : String) (d : PyVal) : PyVal :=
  match entries.find? (fun e => e.fst == k) with
  | some e => e.snd
  | none => d

/-- Python dict.get(key), whose default is None. -/
def dictGet (entries : List (String × PyVal)) (k : String) : PyVal :=
  dictGetD entries k PyVal.nul

/-- Python truthiness of the modelled values. -/
def pyTruthy : PyVal → Bool
  | .str s => !s.isEmpty
  | .int n => n != 0
  | .nul => false

/-- Python str() of the modelled values. -/
def str_of : PyVal → List Char
  | .str s => s
  | .int n => (toString n).toList
  | .nul => "None".toList

/-- field.get("label") or field.get("name") or "Unknown". -/
def resolve_label (entries : List (String × PyVal)) : PyVal :=
  let a := dictGet entries "label"
  if pyTruthy a then a
  else
    let b := dictGet entries "name"
    if pyTruthy b then b else PyVal.str "Unknown".toList

/-- mapper._find_exact_offsets. -/
def _find_exact_offsets (raw_text snippet : List Char) : List (Nat × Nat) :=
  let snippet_clean := pyStrip snippet
  if snippet_clean.length < 2 then []
  else (occurrences raw_text snippet_clean).map (fun i => (i, i + snippet_clean.length))

/-- mapper._find_case_insensitive_offsets. -/
def _find_case_insensitive_offsets (raw_text snippet : List Char) : List (Nat × Nat) :=
  let snippet_clean := pyStrip snippet
  if snippet_clean.length < 2 then []
  else (occurrences (pyLower raw_text) (pyLower snippet_clean)).map
    (fun i => (i, i + snippet_clean.length))

/-- The while loop of _find_normalized_offsets, mapping the match position in
the normalized text back to a position in the original text.  Arguments:
normalized text, target normalized position, remaining original text,
original_pos, normalized_pos; returns the final original_pos. -/
def walkAux (nt : List Char) (start : Nat) : List Char → Nat → Nat → Nat
  | [], op, _ => op
  | c :: rest, op, np =>
    if np < start then
      walkAux nt start rest (op + 1)
        (if isSpaceChar c then
          (if np = 0 ∨ nt.getD (np - 1) ' ' ≠ ' ' then np + 1 else np)
        else np + 1)
    else op

/-- mapper._find_normalized_offsets. -/
def _find_normalized_offsets (raw_text snippet : List Char) : List (Nat × Nat) :=
  let snippet_clean := pyStrip snippet
  if snippet_clean.length < 2 then []
  else
    let normalized_snippet := collapseWS (pyLower snippet_clean)
    let normalized_text := collapseWS (pyLower raw_text)
    match firstOcc normalized_text normalized_snippet with
    | none => []
    | some start =>
      let original_pos := walkAux normalized_text start raw_text 0 0
      [(original_pos, original_pos + snippet_clean.length)]

/-- The descending list of candidate substring lengths scanned by
_find_fuzzy_match: total, total - 1, ..., minLen (range(total, minLen - 1, -1)). -/
def fuzzyLengths (total minLen : Nat) : List Nat :=
  (List.range (total + 1 - minLen)).map (fun i => total - i)

/-- The inner loop of _find_fuzzy_match at one substring length L: scan the
start offsets within the candidate left to right and return the span of the
first substring of length L that occurs in the text. -/
def fuzzyInner (raw_lower snippet_lower : List Char) (scLen L : Nat) : Option (Nat × Nat) :=
  (List.range (scLen - L + 1)).findSome? (fun start_pos =>
    match firstOcc raw_lower ((snippet_lower.drop start_pos).take L) with
    | some idx => some (idx, idx + L)
    | none => none)

/-- mapper._find_fuzzy_match. -/
def _find_fuzzy_match (raw_text snippet : List Char) : Option (Nat × Nat) :=
  let snippet_clean := pyStrip snippet
  if snippet_clean.length < 3 then none
  else
    (fuzzyLengths snippet_clean.length (max 3 (snippet_clean.length / 2))).findSome?
      (fuzzyInner (pyLower raw_text) (pyLower snippet_clean) snippet_clean.length)

/-- Python's `if offsets: return offsets[0]` chaining: keep the first stage
that produced a result. -/
def pyOr (a b : Option (Nat × Nat)) : Option (Nat × Nat) :=
  match a with
  | some o => some o
  | none => b

/-- mapper._find_best_match: the seven-strategy cascade.  Strategies 2, 4 and 6
run only when value is nonempty and differs from snippet; strategy 7 runs on
snippet when snippet is nonempty, otherwise on value. -/
def _find_best_match (raw_text snippet value : List Char) : Option (Nat × Nat) :=
  pyOr ((_find_exact_offsets raw_text snippet).head?)
    (pyOr (if value ≠ [] ∧ value ≠ snippet
           then (_find_exact_offsets raw_text value).head? else none)
      (pyOr ((_find_case_insensitive_offsets raw_text snippet).head?)
        (pyOr (if value ≠ [] ∧ value ≠ snippet
               then (_find_case_insensitive_offsets raw_text value).head? else none)
          (pyOr ((_find_normalized_offsets raw_text snippet).head?)
            (pyOr (if value ≠ [] ∧ value ≠ snippet
                   then (_find_normalized_offsets raw_text value).head? else none)
              (_find_fuzzy_match raw_text (if snippet ≠ [] then snippet else value)))))))

/-- Stable insertion into an offset-sorted list: the inserted record (which came
earlier in the original list) is placed before records of equal offset. -/
def insertByOffset (c : CharRec) : List CharRec → List CharRec
  | [] => [c]
  | d :: rest =>
    if c.global_offset ≤ d.global_offset then c :: d :: rest
    else d :: insertByOffset c rest

/-- Stable ascending sort by global_offset (extensionally equal to Python's
stable list.sort with key global_offset). -/
def sortByOffset : List CharRec → List CharRec
  | [] => []
  | c :: rest => insertByOffset c (sortByOffset rest)

/-- mapper._flatten_chars: concatenate the pages' character lists and sort by
global_offset. -/
def _flatten_chars (pages : List PageLayout) : List CharRec :=
  sortByOffset ((pages.map (fun p => p.chars)).flatten)

/-- Python abs on the modelled floats. -/
def pyAbs (q : ℚ) : ℚ := if q < 0 then -q else q

/-- The loop state of _offset_to_rects: the accumulated rects, the running
rectangle (current) and the previous character's offset and y0. -/
structure RectState where
  rects : List FieldRect
  current : Option FieldRect
  previous_offset : Option Nat
  previous_y : Option ℚ
deriving DecidableEq, Repr

/-- One iteration of the loop in _offset_to_rects: merge the character into the
running rectangle when it is on the same page, at an offset at most 1 beyond
the previous character, and within 5 units of the previous character's y0;
otherwise close the running rectangle and start a new one annotated with the
page size (default (1, 1)). -/
def rectStep (page_sizes : List (ℚ × ℚ)) (st : RectState) (ch : CharRec) : RectState :=
  match st.current, st.previous_offset, st.previous_y with
  | some cur, some po, some py =>
    if cur.page = ch.page ∧ (ch.global_offset : ℤ) - (po : ℤ) ≤ 1 ∧ pyAbs (ch.y0 - py) < 5 then
      { rects := st.rects
        current := some { cur with
          x0 := min cur.x0 ch.x0
          y0 := min cur.y0 ch.y0
          x1 := max cur.x1 ch.x1
          y1 := max cur.y1 ch.y1 }
        previous_offset := some ch.global_offset
        previous_y := some ch.y0 }
    else
      { rects := st.rects ++ [cur]
        current := some
          { page := ch.page, x0 := ch.x0, y0 := ch.y0, x1 := ch.x1, y1 := ch.y1
            page_width := (page_sizes.getD ch.page ((1 : ℚ), (1 : ℚ))).1
            page_height := (page_sizes.getD ch.page ((1 : ℚ), (1 : ℚ))).2 }
        previous_offset := some ch.global_offset
        previous_y := some ch.y0 }
  | _, _, _ =>
      { rects := st.rects ++ st.current.toList
        current := some
          { page := ch.page, x0 := ch.x0, y0 := ch.y0, x1 := ch.x1, y1 := ch.y1
            page_width := (page_sizes.getD ch.page ((1 : ℚ), (1 : ℚ))).1
            page_height := (page_sizes.getD ch.page ((1 : ℚ), (1 : ℚ))).2 }
        previous_offset := some ch.global_offset
        previous_y := some ch.y0 }

/-- mapper._offset_to_rects: select the characters of the half-open span
[start, stop), walk them in order accumulating rectangles, and append the final
running rectangle after the scan. -/
def _offset_to_rects (start stop : Nat) (chars : List CharRec)
    (page_sizes : List (ℚ × ℚ)) : List FieldRect :=
  let relevant := chars.filter (fun ch =>
    decide (start ≤ ch.global_offset) && decide (ch.global_offset < stop))
  let st := relevant.foldl (rectStep page_sizes)
    { rects := [], current := none, previous_offset := none, previous_y := none }
  st.rects ++ st.current.toList

/-- The body of the per-field loop in map_fields_to_rects.  Raising is modelled
as Except.error: field.get on a non-dict record raises AttributeError, and
constructing ExtractedField with a non-string label raises a pydantic
ValidationError. -/
def processField (raw_text : List Char) (flat_chars : List CharRec)
    (page_sizes : List (ℚ × ℚ)) : PyField → Except Unit ExtractedField
  | .nonDict _ => .error ()
  | .dict entries =>
    match resolve_label entries with
    | .str label =>
      let value := pyStrip (str_of (dictGetD entries "value" (PyVal.str [])))
      let snippet0 := pyStrip (str_of (dictGetD entries "snippet" (PyVal.str [])))
      let snippet := if snippet0.isEmpty then value else snippet0
      let rects :=
        match _find_best_match raw_text snippet value with
        | some (s, e) => _offset_to_rects s e flat_chars page_sizes
        | none => []
      .ok { label := label, value := value, snippet := snippet, rects := rects }
    | _ => .error ()

/-- mapper.map_fields_to_rects, returning the "fields" list of its output
dict.  The page-size map and the flattened character index are computed once
for the whole call; the loop raises at the first field whose processing
raises. -/
def map_fields_to_rects (fields : List PyField) (raw_text : List Char)
    (pages : List PageLayout) : Except Unit (List ExtractedField) :=
  fields.mapM (processField raw_text (_flatten_chars pages)
    (pages.map (fun p => (p.width, p.height))))

/-- A field record on which the loop body cannot raise: a dict whose resolved
label is a string. -/
def okFieldB : PyField → Bool
  | .dict entries =>
    match resolve_label entries with
    | .str _ => true
    | _ => false
  | .nonDict _ => false

/-! ### Supporting lemmas -/

@[simp] lemma pyOr_some (o : Nat × Nat) (b : Option (Nat × Nat)) : pyOr (some o) b = some o := rfl

@[simp] lemma pyOr_none (b : Option (Nat × Nat)) : pyOr none b = b := rfl

lemma pyLower_length (l : List Char) : (pyLower l).length = l.length := List.length_map l _

/-- findSome? hits some value exactly when the list splits at a first element
on which the function fires, every earlier element giving none. -/
lemma findSome?_split {α β : Type _} (f : α → Option β) :
    ∀ (l : List α) (b : β), l.findSome? f = some b →
      ∃ l₁ a l₂, l = l₁ ++ a :: l₂ ∧ (∀ x ∈ l₁, f x = none) ∧ f a = some b := by
  intro l
  induction l with
  | nil => intro b h; simp at h
  | cons a t ih =>
    intro b h
    rw [List.findSome?_cons] at h
    cases hfa : f a with
    | some o =>
      rw [hfa] at h
      refine ⟨[], a, t, rfl, by simp, ?_⟩
      rw [hfa]
      exact h
    | none =>
      rw [hfa] at h
      obtain ⟨l₁, x, l₂, hl, hnone, hx⟩ := ih b h
      refine ⟨a :: l₁, x, l₂, by rw [hl]; rfl, ?_, hx⟩
      intro y hy
      rcases List.mem_cons.mp hy with rfl | hy'
      · exact hfa
      · exact hnone y hy'

/-- The head of a filtered range' is the least element of the range satisfying
the predicate. -/
lemma filter_range'_head (p : Nat → Bool) :
    ∀ (n s i : Nat), ((List.range' s n).filter p).head? = some i →
      p i = true ∧ ∀ j, s ≤ j → j < i → p j = false := by
  intro n
  induction n with
  | zero => intro s i h; simp at h
  | succ m ih =>
    intro s i h
    rw [List.range'_succ, List.filter_cons] at h
    by_cases hp : p s = true
    · rw [if_pos hp] at h
      simp only [List.head?_cons, Option.some.injEq] at h
      subst h
      exact ⟨hp, fun j h1 h2 => absurd (le_antisymm (by omega) h1) (by omega)⟩
    · rw [if_neg hp] at h
      obtain ⟨h1, h2⟩ := ih (s + 1) i h
      refine ⟨h1, fun j hj1 hj2 => ?_⟩
      by_cases hjs : j = s
      · subst hjs; exact Bool.eq_false_iff.mpr hp
      · exact h2 j (by omega) hj2

/-- The head of the occurrence list is the leftmost occurrence. -/
lemma occurrences_head (hay needle : List Char) (i : Nat)
    (h : (occurrences hay needle).head? = some i) :
    needle.isPrefixOf (hay.drop i) = true ∧
    ∀ j, j < i → needle.isPrefixOf (hay.drop j) = false := by
  rw [occurrences, List.range_eq_range'] at h
  obtain ⟨h1, h2⟩ := filter_range'_head _ _ _ _ h
  exact ⟨h1, fun j hj => h2 j (Nat.zero_le j) hj⟩

/-- A nonempty needle has no occurrence at all exactly when find fails. -/
lemma firstOcc_eq_none_iff (hay needle : List Char) (hne : needle ≠ []) :
    firstOcc hay needle = none ↔ ∀ i, needle.isPrefixOf (hay.drop i) = false := by
  rw [firstOcc, List.head?_eq_none_iff, occurrences, List.filter_eq_nil_iff]
  constructor
  · intro h i
    by_cases hi : i < hay.length + 1
    · have := h i (List.mem_range.mpr hi)
      simp only [Bool.not_eq_true] at this
      exact this
    · rw [List.drop_eq_nil_of_le (by omega)]
      cases needle with
      | nil => exact absurd rfl hne
      | cons c t => rfl
  · intro h i _
    simp [h i]

lemma mem_fuzzyLengths {total minLen L : Nat} :
    L ∈ fuzzyLengths total minLen ↔ minLen ≤ L ∧ L ≤ total := by
  rw [fuzzyLengths]
  simp only [List.mem_map, List.mem_range]
  constructor
  · rintro ⟨i, hi, rfl⟩; omega
  · rintro ⟨h1, h2⟩; exact ⟨total - L, by omega, by omega⟩

lemma fuzzyLengths_sorted (total minLen : Nat) :
    List.Pairwise (fun a b => b < a) (fuzzyLengths total minLen) := by
  rw [fuzzyLengths, List.pairwise_map]
  refine (List.pairwise_lt_range _).imp_of_mem ?_
  intro a b ha hb hab
  rw [List.mem_range] at ha hb
  omega

lemma fuzzyInner_eq_none (rl sl : List Char) (n L : Nat) (hL : 0 < L)
    (hsl : sl.length = n) (h : fuzzyInner rl sl n L = none) :
    ∀ sp idx, sp + L ≤ n → ((sl.drop sp).take L).isPrefixOf (rl.drop idx) = false := by
  intro sp idx hsp
  rw [fuzzyInner, List.findSome?_eq_none_iff] at h
  have hmem : sp ∈ List.range (n - L + 1) := List.mem_range.mpr (by omega)
  have hval := h sp hmem
  cases hocc : firstOcc rl ((sl.drop sp).take L) with
  | some k => rw [hocc] at hval; simp at hval
  | none =>
    have hne : (sl.drop sp).take L ≠ [] := by
      apply List.ne_nil_of_length_pos
      rw [List.length_take, List.length_drop, hsl]
      omega
    exact (firstOcc_eq_none_iff rl _ hne).mp hocc idx

lemma fuzzyInner_eq_some (rl sl : List Char) (n L i j : Nat)
    (h : fuzzyInner rl sl n L = some (i, j)) :
    j = i + L ∧ ∃ sp, sp ≤ n - L ∧ ((sl.drop sp).take L).isPrefixOf (rl.drop i) = true := by
  rw [fuzzyInner] at h
  obtain ⟨sp, hsp, hfsp⟩ := List.exists_of_findSome?_eq_some h
  rw [List.mem_range] at hsp
  cases hocc : firstOcc rl ((sl.drop sp).take L) with
  | none => rw [hocc] at hfsp; simp at hfsp
  | some idx =>
    rw [hocc] at hfsp
    simp only [Option.some.injEq, Prod.mk.injEq] at hfsp
    obtain ⟨rfl, rfl⟩ := hfsp
    exact ⟨rfl, sp, by omega, (occurrences_head rl _ idx hocc).1⟩

lemma dropWhile_head_false {p : Char → Bool} :
    ∀ {l : List Char} {c : Char} {t : List Char}, l.dropWhile p = c :: t → p c = false := by
  intro l
  induction l with
  | nil => intro c t h; simp at h
  | cons a rest ih =>
    intro c t h
    rw [List.dropWhile_cons] at h
    by_cases hp : p a = true
    · rw [if_pos hp] at h
      exact ih h
    · rw [if_neg hp] at h
      injection h with h1 h2
      subst h1
      simp only [Bool.not_eq_true] at hp
      exact hp

lemma dropWhile_eq_self_of_head {p : Char → Bool} {l : List Char}
    (h : ∀ c t, l = c :: t → p c = false) : l.dropWhile p = l := by
  cases l with
  | nil => rfl
  | cons c t =>
    rw [List.dropWhile_cons, h c t rfl]
    simp

lemma dropWhile_getLast {p : Char → Bool} :
    ∀ {l : List Char}, l.dropWhile p ≠ [] → (l.dropWhile p).getLast? = l.getLast? := by
  intro l
  induction l with
  | nil => intro h; simp at h
  | cons a rest ih =>
    intro h
    rw [List.dropWhile_cons]
    by_cases hp : p a = true
    · rw [List.dropWhile_cons, if_pos hp] at h
      rw [if_pos hp, ih h]
      cases rest with
      | nil => exact absurd (by simp) h
      | cons b t => exact (List.getLast?_cons_cons).symm
    · rw [if_neg hp]

/-- Python strip is idempotent. -/
lemma pyStrip_idem (l : List Char) : pyStrip (pyStrip l) = pyStrip l := by
  have hS2 : (pyStrip l).dropWhile isSpaceChar = pyStrip l := by
    rw [pyStrip]
    apply dropWhile_eq_self_of_head
    intro c t h
    by_cases hB : (l.dropWhile isSpaceChar).reverse.dropWhile isSpaceChar = []
    · rw [hB] at h; simp at h
    · have hlast : ((l.dropWhile isSpaceChar).reverse.dropWhile isSpaceChar).getLast? =
          (l.dropWhile isSpaceChar).head? := by
        rw [dropWhile_getLast hB, List.getLast?_reverse]
      have hhead : ((l.dropWhile isSpaceChar).reverse.dropWhile isSpaceChar).reverse.head? =
          some c := by rw [h]; rfl
      rw [List.head?_reverse, hlast] at hhead
      cases hA : l.dropWhile isSpaceChar with
      | nil => rw [hA] at hhead; simp at hhead
      | cons a t' =>
        rw [hA] at hhead
        simp only [List.head?_cons, Option.some.injEq] at hhead
        subst hhead
        exact dropWhile_head_false hA
  have hS1 : (pyStrip l).reverse.dropWhile isSpaceChar = (pyStrip l).reverse := by
    rw [pyStrip, List.reverse_reverse]
    apply dropWhile_eq_self_of_head
    intro c t h
    exact dropWhile_head_false h
  rw [pyStrip, hS2, hS1, List.reverse_reverse, pyStrip]

/-- The length guards of the first three strategies (length below 2). -/
lemma exact_offsets_short (raw_text c : List Char) (h : (pyStrip c).length < 2) :
    _find_exact_offsets raw_text c = [] := by
  simp only [_find_exact_offsets]
  rw [if_pos h]

lemma ci_offsets_short (raw_text c : List Char) (h : (pyStrip c).length < 2) :
    _find_case_insensitive_offsets raw_text c = [] := by
  simp only [_find_case_insensitive_offsets]
  rw [if_pos h]

lemma normalized_offsets_short (raw_text c : List Char) (h : (pyStrip c).length < 2) :
    _find_normalized_offsets raw_text c = [] := by
  simp only [_find_normalized_offsets]
  rw [if_pos h]

/-- The length guard of the fuzzy strategy (length below 3). -/
lemma fuzzy_short (raw_text c : List Char) (h : (pyStrip c).length < 3) :
    _find_fuzzy_match raw_text c = none := by
  simp only [_find_fuzzy_match]
  rw [if_pos h]

/-- Locate returns no match when both trimmed candidates have length at most 1. -/
lemma best_match_short (raw_text snippet value : List Char)
    (hs : (pyStrip snippet).length ≤ 1) (hv : (pyStrip value).length ≤ 1) :
    _find_best_match raw_text snippet value = none := by
  rw [_find_best_match,
    exact_offsets_short raw_text snippet (by omega),
    exact_offsets_short raw_text value (by omega),
    ci_offsets_short raw_text snippet (by omega),
    ci_offsets_short raw_text value (by omega),
    normalized_offsets_short raw_text snippet (by omega),
    normalized_offsets_short raw_text value (by omega)]
  simp only [List.head?_nil, ite_self, pyOr_none]
  split
  · exact fuzzy_short _ _ (by omega)
  · exact fuzzy_short _ _ (by omega)

/-- The head of an offsets list of the exact-match shape is the leftmost
occurrence of the needle, paired with its end offset. -/
lemma offsets_map_head (hay needle : List Char) (L i j : Nat)
    (h : ((occurrences hay needle).map (fun k => (k, k + L))).head? = some (i, j)) :
    j = i + L ∧ needle.isPrefixOf (hay.drop i) = true ∧
      ∀ k, k < i → needle.isPrefixOf (hay.drop k) = false := by
  rw [List.head?_map] at h
  cases hocc : (occurrences hay needle).head? with
  | none => rw [hocc] at h; simp at h
  | some k =>
    rw [hocc] at h
    simp only [Option.map_some', Option.some.injEq, Prod.mk.injEq] at h
    obtain ⟨rfl, rfl⟩ := h
    exact ⟨rfl, occurrences_head hay needle k hocc⟩

/-- A field whose loop body cannot raise yields an ok record. -/
lemma processField_ok_of_okFieldB (raw_text : List Char) (flat_chars : List CharRec)
    (page_sizes : List (ℚ × ℚ)) (f : PyField) (h : okFieldB f = true) :
    ∃ mf, processField raw_text flat_chars page_sizes f = Except.ok mf := by
  cases f with
  | nonDict v => simp [okFieldB] at h
  | dict entries =>
    cases hres : resolve_label entries with
    | str lab =>
      simp only [processField, hres]
      exact ⟨_, rfl⟩
    | int n => rw [okFieldB, hres] at h; simp at h
    | nul => rw [okFieldB, hres] at h; simp at h

/-- Running the per-field loop over records that cannot raise produces one
output record per input record, in input order. -/
lemma mapM_ok_of_all_ok (g : PyField → Except Unit ExtractedField) :
    ∀ (l : List PyField), (∀ f ∈ l, ∃ mf, g f = Except.ok mf) →
      ∃ out, l.mapM g = Except.ok out ∧ out.length = l.length ∧
        ∀ i (hi : i < l.length) (ho : i < out.length),
          g (l.get ⟨i, hi⟩) = Except.ok (out.get ⟨i, ho⟩) := by
  intro l
  induction l with
  | nil =>
    intro _
    refine ⟨[], rfl, rfl, ?_⟩
    intro i hi
    simp at hi
  | cons a t ih =>
    intro h
    obtain ⟨mf, hmf⟩ := h a (List.mem_cons_self a t)
    obtain ⟨out, hout, hlen, hidx⟩ := ih (fun f hf => h f (List.mem_cons_of_mem a hf))
    refine ⟨mf :: out, ?_, by simp [hlen], ?_⟩
    · rw [List.mapM_cons, hmf, hout]
      rfl
    · intro i hi ho
      cases i with
      | zero => exact hmf
      | succ k =>
        rw [List.get_cons_succ, List.get_cons_succ]
        exact hidx k (by simpa using hi) (by simpa using ho)

/-- One step of the rectangle loop preserves well-ordered rectangle corners. -/
lemma rectStep_good (page_sizes : List (ℚ × ℚ)) (st : RectState) (ch : CharRec)
    (hch : ch.x0 ≤ ch.x1 ∧ ch.y0 ≤ ch.y1)
    (hr : ∀ r ∈ st.rects, r.x0 ≤ r.x1 ∧ r.y0 ≤ r.y1)
    (hc : ∀ r, st.current = some r → r.x0 ≤ r.x1 ∧ r.y0 ≤ r.y1) :
    (∀ r ∈ (rectStep page_sizes st ch).rects, r.x0 ≤ r.x1 ∧ r.y0 ≤ r.y1) ∧
    (∀ r, (rectStep page_sizes st ch).current = some r → r.x0 ≤ r.x1 ∧ r.y0 ≤ r.y1) := by
  rcases st with ⟨rects, cur?, po?, py?⟩
  simp only at hr hc
  have hclose : ∀ r ∈ rects ++ cur?.toList, r.x0 ≤ r.x1 ∧ r.y0 ≤ r.y1 := by
    intro r hmem
    rcases List.mem_append.mp hmem with h1 | h2
    · exact hr r h1
    · exact hc r (Option.mem_def.mp (Option.mem_toList.mp h2))
  rcases cur? with _ | cur
  · rcases po? with _ | po <;> rcases py? with _ | py <;>
      exact ⟨hclose, fun r hmem => by
        injection hmem with h'
        subst h'
        exact ⟨hch.1, hch.2⟩⟩
  · rcases po? with _ | po
    · rcases py? with _ | py <;>
        exact ⟨hclose, fun r hmem => by
          injection hmem with h'
          subst h'
          exact ⟨hch.1, hch.2⟩⟩
    · rcases py? with _ | py
      · exact ⟨hclose, fun r hmem => by
          injection hmem with h'
          subst h'
          exact ⟨hch.1, hch.2⟩⟩
      · simp only [rectStep]
        split
      
        · refine ⟨hr, fun r hmem => ?_⟩
          injection hmem with h'
          subst h'
          obtain ⟨hx, hy⟩ := hc cur rfl
          constructor
          · exact le_trans (min_le_left _ _) (le_trans hx (le_max_left _ _))
          · exact le_trans (min_le_left _ _) (le_trans hy (le_max_left _ _))
        · refine ⟨?_, fun r hmem => ?_⟩
          · intro r hmem
            rcases List.mem_append.mp hmem with h1 | h2
            · exact hr r h1
            · rw [List.mem_singleton] at h2
              exact hc r (by rw [h2])
          · injection hmem with h'
            subst h'
            exact ⟨hch.1, hch.2⟩

/-- The rectangle loop preserves well-ordered corners along any character list. -/
lemma foldl_rectStep_good (page_sizes : List (ℚ × ℚ)) :
    ∀ (cs : List CharRec) (st : RectState),
      (∀ c ∈ cs, c.x0 ≤ c.x1 ∧ c.y0 ≤ c.y1) →
      (∀ r ∈ st.rects, r.x0 ≤ r.x1 ∧ r.y0 ≤ r.y1) →
      (∀ r, st.current = some r → r.x0 ≤ r.x1 ∧ r.y0 ≤ r.y1) →
      (∀ r ∈ (cs.foldl (rectStep page_sizes) st).rects, r.x0 ≤ r.x1 ∧ r.y0 ≤ r.y1) ∧
      (∀ r, (cs.foldl (rectStep page_sizes) st).current = some r →
        r.x0 ≤ r.x1 ∧ r.y0 ≤ r.y1) := by
  intro cs
  induction cs with
  | nil => intro st _ hr hc; exact ⟨hr, hc⟩
  | cons c t ih =>
    intro st hcs hr hc
    obtain ⟨hr', hc'⟩ := rectStep_good page_sizes st c (hcs c (List.mem_cons_self c t)) hr hc
    exact ih (rectStep page_sizes st c) (fun x hx => hcs x (List.mem_cons_of_mem c hx)) hr' hc'

/-! ### Claim theorems -/

/-- C2 counterexample: in the text "hello world" with snippet "qqq" and value
"worldz", strategies 1-6 fail on both candidates and the fuzzy strategy fails
on the snippet, while the fuzzy strategy on the value would find "world" at
span (6, 11); the cascade nevertheless returns no match, because strategy 7 is
applied only to the snippet. -/
theorem best_match_value_fuzzy_skipped :
    _find_best_match "hello world".toList "qqq".toList "worldz".toList = none ∧
    _find_fuzzy_match "hello world".toList "worldz".toList = some (6, 11) :=
  ⟨by decide, by decide⟩

/-- C2 (amended): the exact, case-insensitive and whitespace-normalized
strategies are each applied first to snippet and then to value, but the fuzzy
strategy is applied exactly once, to snippet whenever snippet is nonempty
(and only otherwise to value); so when the first six stages fail the cascade
returns the fuzzy result for snippet alone, even if the fuzzy strategy would
succeed on value. -/
theorem best_match_fuzzy_snippet_only (raw_text snippet value : List Char)
    (hs : snippet ≠ [])
    (h1 : _find_exact_offsets raw_text snippet = [])
    (h2 : _find_exact_offsets raw_text value = [])
    (h3 : _find_case_insensitive_offsets raw_text snippet = [])
    (h4 : _find_case_insensitive_offsets raw_text value = [])
    (h5 : _find_normalized_offsets raw_text snippet = [])
    (h6 : _find_normalized_offsets raw_text value = []) :
    _find_best_match raw_text snippet value = _find_fuzzy_match raw_text snippet := by
  simp only [_find_best_match, h1, h2, h3, h4, h5, h6, List.head?_nil, ite_self, pyOr_none]
  rw [if_pos hs]

theorem best_match_fuzzy_snippet_only_witness :
    _find_best_match "hello world".toList "qqq".toList "worldz".toList =
      _find_fuzzy_match "hello world".toList "qqq".toList :=
  best_match_fuzzy_snippet_only _ _ _ (by decide) (by decide) (by decide) (by decide)
    (by decide) (by decide) (by decide)

/-- C5: whichever occurrence-list strategy succeeds reports the leftmost
occurrence: the head of the exact offsets list is the least index at which the
trimmed candidate occurs (and similarly for the case-insensitive strategy on
the lower-cased text), and when the first stage yields matches the cascade
returns exactly its head. -/
theorem best_match_leftmost :
    (∀ raw_text snippet value i j,
      (_find_exact_offsets raw_text snippet).head? = some (i, j) →
      _find_best_match raw_text snippet value = some (i, j)) ∧
    (∀ raw_text c i j, (_find_exact_offsets raw_text c).head? = some (i, j) →
      j = i + (pyStrip c).length ∧
      (pyStrip c).isPrefixOf (raw_text.drop i) = true ∧
      ∀ k, k < i → (pyStrip c).isPrefixOf (raw_text.drop k) = false) ∧
    (∀ raw_text c i j,
      (_find_case_insensitive_offsets raw_text c).head? = some (i, j) →
      j = i + (pyStrip c).length ∧
      (pyLower (pyStrip c)).isPrefixOf ((pyLower raw_text).drop i) = true ∧
      ∀ k, k < i → (pyLower (pyStrip c)).isPrefixOf ((pyLower raw_text).drop k) = false) := by
  refine ⟨?_, ?_, ?_⟩
  · intro raw_text snippet value i j h
    simp only [_find_best_match, h, pyOr_some]
  · intro raw_text c i j h
    by_cases hlen : (pyStrip c).length < 2
    · rw [exact_offsets_short _ _ hlen] at h
      simp at h
    · simp only [_find_exact_offsets] at h
      rw [if_neg hlen] at h
      exact offsets_map_head _ _ _ _ _ h
  · intro raw_text c i j h
    by_cases hlen : (pyStrip c).length < 2
    · rw [ci_offsets_short _ _ hlen] at h
      simp at h
    · simp only [_find_case_insensitive_offsets] at h
      rw [if_neg hlen] at h
      exact offsets_map_head _ _ _ _ _ h

theorem best_match_leftmost_witness :
    _find_best_match "01234PQ789a123456789b123456789c123456789PQx".toList "PQ".toList
      "vv".toList = some (5, 7) :=
  best_match_leftmost.1 _ _ _ 5 7 (by decide)

/-- C6: when the whitespace-normalized candidate occurs in the normalized
lower-cased text, the normalized strategy returns the single span whose start
is computed by walking the original text up to the normalized target position
and whose end is that start plus the trimmed candidate's length (so the span
length always equals the trimmed candidate's length); when the exact and
case-insensitive strategies fail on both candidates, the cascade returns
exactly this span. -/
theorem normalized_match_spec (raw_text snippet value : List Char) (start : Nat)
    (hlen : 2 ≤ (pyStrip snippet).length)
    (hfind : firstOcc (collapseWS (pyLower raw_text))
      (collapseWS (pyLower (pyStrip snippet))) = some start)
    (h1 : _find_exact_offsets raw_text snippet = [])
    (h2 : _find_exact_offsets raw_text value = [])
    (h3 : _find_case_insensitive_offsets raw_text snippet = [])
    (h4 : _find_case_insensitive_offsets raw_text value = []) :
    _find_normalized_offsets raw_text snippet =
      [(walkAux (collapseWS (pyLower raw_text)) start raw_text 0 0,
        walkAux (collapseWS (pyLower raw_text)) start raw_text 0 0 +
          (pyStrip snippet).length)] ∧
    _find_best_match raw_text snippet value =
      some (walkAux (collapseWS (pyLower raw_text)) start raw_text 0 0,
        walkAux (collapseWS (pyLower raw_text)) start raw_text 0 0 +
          (pyStrip snippet).length) ∧
    (∀ s e, (s, e) ∈ _find_normalized_offsets raw_text snippet →
      e - s = (pyStrip snippet).length) := by
  have hnorm : _find_normalized_offsets raw_text snippet =
      [(walkAux (collapseWS (pyLower raw_text)) start raw_text 0 0,
        walkAux (collapseWS (pyLower raw_text)) start raw_text 0 0 +
          (pyStrip snippet).length)] := by
    simp only [_find_normalized_offsets]
    rw [if_neg (by omega), hfind]
  refine ⟨hnorm, ?_, ?_⟩
  · simp only [_find_best_match, h1, h2, h3, h4, hnorm, List.head?_nil, ite_self,
      pyOr_none, List.head?_cons, pyOr_some]
  · intro s e hmem
    rw [hnorm, List.mem_singleton] at hmem
    rw [Prod.ext_iff] at hmem
    obtain ⟨hs', he'⟩ := hmem
    simp only at hs' he'
    omega

theorem normalized_match_spec_witness :
    7 - 0 = (pyStrip "pn 1029".toList).length :=
  (normalized_match_spec "PN   1029 x".toList "pn 1029".toList "vv".toList 0
    (by decide) (by decide) (by decide) (by decide) (by decide) (by decide)).2.2 0 7
    (by decide)

/-- C8: a candidate whose trimmed length is below a strategy's minimum makes
that strategy return no match (length under 2 for the exact, case-insensitive
and normalized strategies, length under 3 for the fuzzy strategy); hence when
snippet and value both trim to a single character every strategy is skipped,
Locate returns no match, and such a field is emitted with an empty rects
list. -/
theorem short_candidate_guards :
    (∀ raw_text c, (pyStrip c).length < 2 →
      _find_exact_offsets raw_text c = [] ∧
      _find_case_insensitive_offsets raw_text c = [] ∧
      _find_normalized_offsets raw_text c = []) ∧
    (∀ raw_text c, (pyStrip c).length < 3 → _find_fuzzy_match raw_text c = none) ∧
    (∀ raw_text snippet value,
      (pyStrip snippet).length = 1 → (pyStrip value).length = 1 →
      _find_best_match raw_text snippet value = none) ∧
    (∀ raw_text flat_chars page_sizes entries lab,
      resolve_label entries = PyVal.str lab →
      (pyStrip (str_of (dictGetD entries "value" (PyVal.str [])))).length = 1 →
      (pyStrip (str_of (dictGetD entries "snippet" (PyVal.str [])))).length ≤ 1 →
      ∃ mf, processField raw_text flat_chars page_sizes (PyField.dict entries) =
        Except.ok mf ∧ mf.rects = []) := by
  refine ⟨?_, ?_, ?_, ?_⟩
  · intro raw_text c h
    exact ⟨exact_offsets_short _ _ h, ci_offsets_short _ _ h, normalized_offsets_short _ _ h⟩
  · intro raw_text c h
    exact fuzzy_short _ _ h
  · intro raw_text snippet value hs hv
    exact best_match_short _ _ _ (by omega) (by omega)
  · intro raw_text flat_chars page_sizes entries lab hres hv hs
    simp only [processField, hres]
    have hbm : _find_best_match raw_text
        (if (pyStrip (str_of (dictGetD entries "snippet" (PyVal.str [])))).isEmpty
         then pyStrip (str_of (dictGetD entries "value" (PyVal.str [])))
         else pyStrip (str_of (dictGetD entries "snippet" (PyVal.str []))))
        (pyStrip (str_of (dictGetD entries "value" (PyVal.str [])))) = none := by
      apply best_match_short
      · split
        · rw [pyStrip_idem]
          omega
        · rw [pyStrip_idem]
          omega
      · rw [pyStrip_idem]
        omega
    refine ⟨_, rfl, ?_⟩
    simp only [hbm]

theorem short_candidate_guards_witness :
    _find_best_match "ab".toList " x ".toList "y".toList = none :=
  short_candidate_guards.2.2.1 "ab".toList " x ".toList "y".toList (by decide) (by decide)

/-- C4: on a trimmed candidate of length at least 3 the fuzzy strategy scans
substring lengths from the full length down to max(3, length / 2), and start
offsets left to right at each length, returning (idx, idx + length) for the
first substring found in the text; hence a returned span has length between
the minimum and the candidate length, is a lower-cased substring of the
candidate occurring at the returned index, and no strictly longer substring of
the candidate occurs anywhere in the text; and when no substring of at least
the minimum length occurs, no match is returned. -/
theorem fuzzy_match_longest (raw_text snippet : List Char)
    (h3 : 3 ≤ (pyStrip snippet).length) :
    (∀ i j, _find_fuzzy_match raw_text snippet = some (i, j) →
      max 3 ((pyStrip snippet).length / 2) ≤ j - i ∧
      j - i ≤ (pyStrip snippet).length ∧
      (∃ sp, sp + (j - i) ≤ (pyStrip snippet).length ∧
        (((pyLower (pyStrip snippet)).drop sp).take (j - i)).isPrefixOf
          ((pyLower raw_text).drop i) = true) ∧
      (∀ L sp idx, j - i < L → L ≤ (pyStrip snippet).length →
        sp + L ≤ (pyStrip snippet).length →
        (((pyLower (pyStrip snippet)).drop sp).take L).isPrefixOf
          ((pyLower raw_text).drop idx) = false)) ∧
    (_find_fuzzy_match raw_text snippet = none →
      ∀ L sp idx, max 3 ((pyStrip snippet).length / 2) ≤ L →
        L ≤ (pyStrip snippet).length →
        sp + L ≤ (pyStrip snippet).length →
        (((pyLower (pyStrip snippet)).drop sp).take L).isPrefixOf
          ((pyLower raw_text).drop idx) = false) := by
  constructor
  · intro i j hfind
    simp only [_find_fuzzy_match] at hfind
    rw [if_neg (by omega)] at hfind
    obtain ⟨l₁, L, l₂, hl, hnone, hL⟩ := findSome?_split _ _ _ hfind
    have hLmem : L ∈ fuzzyLengths (pyStrip snippet).length
        (max 3 ((pyStrip snippet).length / 2)) := by
      rw [hl]
      exact List.mem_append_right _ (List.mem_cons_self _ _)
    rw [mem_fuzzyLengths] at hLmem
    have h3L : 3 ≤ L := le_trans (le_max_left 3 _) hLmem.1
    obtain ⟨hj, sp, hsp, hpre⟩ := fuzzyInner_eq_some _ _ _ _ _ _ hL
    have hji : j - i = L := by omega
    refine ⟨by omega, by omega, ⟨sp, by omega, by rw [hji]; exact hpre⟩, ?_⟩
    intro L' sp' idx hgt hle hsp'
    have hL'mem : L' ∈ fuzzyLengths (pyStrip snippet).length
        (max 3 ((pyStrip snippet).length / 2)) :=
      mem_fuzzyLengths.mpr ⟨le_trans hLmem.1 (by omega), hle⟩
    have hsort := fuzzyLengths_sorted (pyStrip snippet).length
      (max 3 ((pyStrip snippet).length / 2))
    rw [hl] at hL'mem hsort
    rw [List.pairwise_append] at hsort
    obtain ⟨-, hsort2, -⟩ := hsort
    rw [List.pairwise_cons] at hsort2
    have hL'l₁ : L' ∈ l₁ := by
      rcases List.mem_append.mp hL'mem with hin | hin
      · exact hin
      · rcases List.mem_cons.mp hin with rfl | hin'
        · omega
        · exact absurd (hsort2.1 _ hin') (by omega)
    exact fuzzyInner_eq_none _ _ _ _ (by omega) (pyLower_length _) (hnone _ hL'l₁) sp' idx hsp'
  · intro hfind L sp idx hmin hle hsp
    simp only [_find_fuzzy_match] at hfind
    rw [if_neg (by omega)] at hfind
    rw [List.findSome?_eq_none_iff] at hfind
    have hLmem : L ∈ fuzzyLengths (pyStrip snippet).length
        (max 3 ((pyStrip snippet).length / 2)) := mem_fuzzyLengths.mpr ⟨hmin, hle⟩
    have h3L : 3 ≤ L := le_trans (le_max_left 3 _) hmin
    exact fuzzyInner_eq_none _ _ _ _ (by omega) (pyLower_length _) (hfind _ hLmem) sp idx hsp

theorem fuzzy_match_longest_witness :
    max 3 ((pyStrip "worldz".toList).length / 2) ≤ 11 - 6 :=
  ((fuzzy_match_longest "hello world".toList "worldz".toList (by decide)).1 6 11 (by decide)).1

/-- C3: _offset_to_rects walks the selected characters of the half-open span in
order and appends the final running rectangle after the scan; at each step,
when a running rectangle exists the character is merged into it (minimum of
x0/y0, maximum of x1/y1) if and only if it is on the same page, its offset
exceeds the previous character's offset by at most 1, and its y0 is within 5
units of the previous character's y0; otherwise the running rectangle is
closed and appended and a fresh one starts from the character's box. -/
theorem rect_merge_spec :
    (∀ start stop chars page_sizes, _offset_to_rects start stop chars page_sizes =
      ((chars.filter (fun ch => decide (start ≤ ch.global_offset) &&
          decide (ch.global_offset < stop))).foldl (rectStep page_sizes)
        { rects := [], current := none, previous_offset := none,
          previous_y := none }).rects ++
      ((chars.filter (fun ch => decide (start ≤ ch.global_offset) &&
          decide (ch.global_offset < stop))).foldl (rectStep page_sizes)
        { rects := [], current := none, previous_offset := none,
          previous_y := none }).current.toList) ∧
    (∀ (page_sizes : List (ℚ × ℚ)) (st : RectState) (ch : CharRec) (cur : FieldRect)
      (po : Nat) (py : ℚ),
      st.current = some cur → st.previous_offset = some po → st.previous_y = some py →
      rectStep page_sizes st ch =
        if cur.page = ch.page ∧ (ch.global_offset : ℤ) - (po : ℤ) ≤ 1 ∧
            pyAbs (ch.y0 - py) < 5 then
          { rects := st.rects,
            current := some
              { page := cur.page, x0 := min cur.x0 ch.x0, y0 := min cur.y0 ch.y0,
                x1 := max cur.x1 ch.x1, y1 := max cur.y1 ch.y1,
                page_width := cur.page_width, page_height := cur.page_height },
            previous_offset := some ch.global_offset,
            previous_y := some ch.y0 }
        else
          { rects := st.rects ++ [cur],
            current := some
              { page := ch.page, x0 := ch.x0, y0 := ch.y0, x1 := ch.x1, y1 := ch.y1,
                page_width := (page_sizes.getD ch.page ((1 : ℚ), (1 : ℚ))).1,
                page_height := (page_sizes.getD ch.page ((1 : ℚ), (1 : ℚ))).2 },
            previous_offset := some ch.global_offset,
            previous_y := some ch.y0 }) := by
  constructor
  · intro start stop chars page_sizes
    rfl
  · intro page_sizes st ch cur po py hc hpo hpy
    rcases st with ⟨rects, cur?, po?, py?⟩
    obtain rfl : cur? = some cur := hc
    obtain rfl : po? = some po := hpo
    obtain rfl : py? = some py := hpy
    rfl

theorem rect_merge_spec_witness :
    (rectStep []
      { rects := [], current := some ⟨0, 0, 0, 2, 2, 612, 792⟩,
        previous_offset := some 3, previous_y := some 0 }
      ⟨0, 3, 0, 4, 2, 4⟩).previous_offset = some 4 := by
  rw [rect_merge_spec.2 [] _ _ ⟨0, 0, 0, 2, 2, 612, 792⟩ 3 0 rfl rfl rfl]
  split <;> rfl

/-- C10: if every character record selected for the span satisfies x0 ≤ x1 and
y0 ≤ y1, then every FieldRect returned by _offset_to_rects satisfies x0 ≤ x1
and y0 ≤ y1: a rectangle starts as a single character's box and merging only
lowers x0/y0 and raises x1/y1. -/
theorem offset_to_rects_good (start stop : Nat) (chars : List CharRec)
    (page_sizes : List (ℚ × ℚ))
    (h : ∀ c ∈ chars, start ≤ c.global_offset → c.global_offset < stop →
      c.x0 ≤ c.x1 ∧ c.y0 ≤ c.y1) :
    ∀ r ∈ _offset_to_rects start stop chars page_sizes, r.x0 ≤ r.x1 ∧ r.y0 ≤ r.y1 := by
  intro r hrmem
  simp only [_offset_to_rects] at hrmem
  have hfilter : ∀ c ∈ chars.filter (fun ch =>
      decide (start ≤ ch.global_offset) && decide (ch.global_offset < stop)),
      c.x0 ≤ c.x1 ∧ c.y0 ≤ c.y1 := by
    intro c hcmem
    rw [List.mem_filter] at hcmem
    obtain ⟨hcm, hcp⟩ := hcmem
    simp only [Bool.and_eq_true, decide_eq_true_eq] at hcp
    exact h c hcm hcp.1 hcp.2
  obtain ⟨hg1, hg2⟩ := foldl_rectStep_good page_sizes
    (chars.filter (fun ch =>
      decide (start ≤ ch.global_offset) && decide (ch.global_offset < stop)))
    { rects := [], current := none, previous_offset := none, previous_y := none }
    hfilter (by simp) (by simp)
  rcases List.mem_append.mp hrmem with h1 | h2
  · exact hg1 r h1
  · exact hg2 r (Option.mem_def.mp (Option.mem_toList.mp h2))

theorem offset_to_rects_good_witness :
    (⟨0, 1, 1, 2, 2, 1, 1⟩ : FieldRect).x0 ≤ (⟨0, 1, 1, 2, 2, 1, 1⟩ : FieldRect).x1 ∧
    (⟨0, 1, 1, 2, 2, 1, 1⟩ : FieldRect).y0 ≤ (⟨0, 1, 1, 2, 2, 1, 1⟩ : FieldRect).y1 :=
  offset_to_rects_good 0 1 [⟨0, 1, 1, 2, 2, 0⟩] [] (by decide)
    ⟨0, 1, 1, 2, 2, 1, 1⟩ (by decide)

/-- C1 (amended): when every candidate field record is a well-formed mapping
(a dict whose resolved label is a string), map_fields_to_rects never raises
and yields a well-formed output; but a field record that is not a mapping is
not skipped: it makes the call raise (AttributeError on field.get, modelled as
Except.error) as soon as it is reached. -/
theorem map_fields_wellformed_ok (fields : List PyField) (raw_text : List Char)
    (pages : List PageLayout) (h : ∀ f ∈ fields, okFieldB f = true) :
    (∃ out, map_fields_to_rects fields raw_text pages = Except.ok out) ∧
    (∀ v rest, map_fields_to_rects (PyField.nonDict v :: rest) raw_text pages =
      Except.error ()) := by
  constructor
  · obtain ⟨out, hout, -, -⟩ := mapM_ok_of_all_ok _ fields
      (fun f hf => processField_ok_of_okFieldB _ _ _ f (h f hf))
    exact ⟨out, hout⟩
  · intro v rest
    rfl

theorem map_fields_wellformed_ok_witness :
    ∃ out, map_fields_to_rects [PyField.dict [("label", PyVal.str "Name".toList)]]
      "ab".toList [] = Except.ok out :=
  (map_fields_wellformed_ok _ _ _ (by decide)).1

/-- C1 counterexample: a structurally malformed (non-dict) candidate field
record is not skipped: map_fields_to_rects raises on it (field.get on a
string raises AttributeError), modelled as Except.error. -/
theorem map_fields_nonmapping_raises :
    map_fields_to_rects [PyField.nonDict (PyVal.str "x".toList)] "abc".toList [] =
      Except.error () := rfl

/-- C7: Map preserves input field order — the i-th output record is exactly the
processed i-th input field — and the empty input list yields the empty output
list. -/
theorem map_fields_order (fields : List PyField) (raw_text : List Char)
    (pages : List PageLayout) (h : ∀ f ∈ fields, okFieldB f = true) :
    map_fields_to_rects [] raw_text pages = Except.ok [] ∧
    ∃ out, map_fields_to_rects fields raw_text pages = Except.ok out ∧
      out.length = fields.length ∧
      ∀ i (hi : i < fields.length) (ho : i < out.length),
        processField raw_text (_flatten_chars pages)
          (pages.map (fun p => (p.width, p.height))) (fields.get ⟨i, hi⟩) =
          Except.ok (out.get ⟨i, ho⟩) := by
  refine ⟨rfl, ?_⟩
  exact mapM_ok_of_all_ok _ fields (fun f hf => processField_ok_of_okFieldB _ _ _ f (h f hf))

theorem map_fields_order_witness :
    map_fields_to_rects [] "ab".toList [] = Except.ok [] :=
  (map_fields_order [PyField.dict []] "ab".toList [] (by decide)).1

/-- C9 (amended): for a fields list of dicts whose resolved labels are strings,
map_fields_to_rects returns exactly one output record per input field — even a
field whose value and snippet are empty after trimming is emitted (with empty
rects) rather than dropped; but a dict whose label entry is a truthy
non-string makes the call raise (pydantic rejects the label) instead of
producing a record. -/
theorem map_fields_length (fields : List PyField) (raw_text : List Char)
    (pages : List PageLayout) (h : ∀ f ∈ fields, okFieldB f = true) :
    ∃ out, map_fields_to_rects fields raw_text pages = Except.ok out ∧
      out.length = fields.length := by
  obtain ⟨out, hout, hlen, -⟩ := mapM_ok_of_all_ok _ fields
    (fun f hf => processField_ok_of_okFieldB _ _ _ f (h f hf))
  exact ⟨out, hout, hlen⟩

theorem map_fields_length_witness :
    ∃ out, map_fields_to_rects [PyField.dict []] "ab".toList [] = Except.ok out ∧
      out.length = 1 :=
  map_fields_length [PyField.dict []] "ab".toList [] (by decide)

/-- C9 counterexample: on the fields list [{"label": 5}] — a list of
dictionaries — map_fields_to_rects raises (the truthy integer label reaches
ExtractedField, whose pydantic validation rejects a non-string label) and so
returns no output records at all. -/
theorem map_fields_int_label_raises :
    map_fields_to_rects [PyField.dict [("label", PyVal.int 5)]] [] [] =
      Except.error () := rfl
